import Mathlib

/-!
Verification of the viral-score-collector service against its specification.

The definitions below are shallow embeddings of the TypeScript sources:
* `src/services/score-calculator.ts` — `ScoreCalculator` (weights, time decay,
  anti-gaming penalties, enhanced multipliers, normalization, pair scores, tiers);
* `src/services/signer.ts` — `ScoreSigner` (constructor, per-pool nonce issuance);
* `src/services/epoch-submitter.ts` — `EpochSubmitter` (readiness, submission guards);
* the Merkle checkpoint builder (`MerkleBuilder`) and its epoch assignment;
* `src/jobs/scheduler.ts` — `processCacheCleanup`.

JavaScript numbers are modelled as rationals (`ℚ`) where the code only performs
field operations and comparisons, and as reals (`ℝ`) where `Math.exp` enters the
computation.  `Math.round` is floor of `x + 1/2`.  Stateful code is modelled by
explicit state passing; the async nonce issuance is modelled as a small-step
interleaving relation whose atomic sections are the stretches of code between
`await` points, matching the JavaScript event-loop execution model.
-/

namespace ViralScore

/-- Aggregated engagement metrics for one token, mirroring the
`AggregatedMetrics` interface in `src/types/memex.ts`.  `latestPostTime`
is a millisecond timestamp (the result of `Date.getTime()`). -/
structure AggregatedMetrics where
  tokenSymbol : String
  posts : ℚ
  views : ℚ
  likes : ℚ
  reposts : ℚ
  replies : ℚ
  uniqueUserCount : ℚ
  latestPostTime : ℚ
  avgBondingCurveProgress : ℚ
  graduatedPostRatio : ℚ
  imagePostRatio : ℚ
  avgPriceFluctuation : ℚ
  preOrderedUserRatio : ℚ
deriving DecidableEq

/-- Scoring weights (`ScoreWeights` in `src/types/score.ts`). -/
structure ScoreWeights where
  posts : ℚ
  views : ℚ
  likes : ℚ
  reposts : ℚ
  replies : ℚ
  uniqueUsers : ℚ
deriving DecidableEq

/-- Enhanced multipliers (`EnhancedScoreMultipliers` in `src/types/score.ts`). -/
structure EnhancedScoreMultipliers where
  graduatedTokenBonus : ℚ
  imagePostBonus : ℚ
  priceVolatilityBonus : ℚ
  preOrderedUserWeight : ℚ
deriving DecidableEq

/-- `DEFAULT_WEIGHTS` from `score-calculator.ts`. -/
def DEFAULT_WEIGHTS : ScoreWeights :=
  { posts := 100, views := 1, likes := 20, reposts := 50, replies := 30, uniqueUsers := 200 }

/-- `DEFAULT_MULTIPLIERS` from `score-calculator.ts`. -/
def DEFAULT_MULTIPLIERS : EnhancedScoreMultipliers :=
  { graduatedTokenBonus := 3/2, imagePostBonus := 6/5, priceVolatilityBonus := 11/10,
    preOrderedUserWeight := 1 }

/-- `MAX_SCORE` (10000 basis points). -/
def MAX_SCORE : ℚ := 10000

/-- `MIN_SCORE`. -/
def MIN_SCORE : ℚ := 0

/-- `SCORE_NORMALIZER`. -/
def SCORE_NORMALIZER : ℚ := 10000

/-- JavaScript `Math.round`: rounds half-way cases toward positive infinity,
i.e. `⌊x + 1/2⌋`, here on rationals. -/
def jsRound (x : ℚ) : ℤ := ⌊x + 1/2⌋

/-- JavaScript `Math.round` on reals (used after the real-valued pipeline). -/
noncomputable def jsRoundR (x : ℝ) : ℤ := ⌊x + 1/2⌋

/-- `ScoreCalculator.calculateRawScore`: the weighted sum of the six
engagement counts. -/
def calculateRawScore (w : ScoreWeights) (m : AggregatedMetrics) : ℚ :=
  m.posts * w.posts + m.views * w.views + m.likes * w.likes +
    m.reposts * w.reposts + m.replies * w.replies + m.uniqueUserCount * w.uniqueUsers

/-- The additive anti-gaming penalty accumulated by
`ScoreCalculator.applyAntiGaming` before the 0.5 cap:
0.3 for a suspicious view-to-engagement ratio (only checked when
`views > 1000`), 0.2 for single-user dominance, 0.1 for spam-like volume. -/
def antiGamingPenalty (m : AggregatedMetrics) : ℚ :=
  (if m.views > 1000 ∧ (m.likes + m.reposts + m.replies) / m.views < 1/1000 then 3/10 else 0) +
    (if m.posts > 10 ∧ m.uniqueUserCount < 3 then 1/5 else 0) +
    (if m.posts > 50 then 1/10 else 0)

/-- `ScoreCalculator.applyAntiGaming`: returns the adjusted score
`rawScore * (1 - min(penalty, 0.5))` together with the (uncapped) penalty.
The incoming score is real-valued because `calculate` feeds it the decayed
raw score. -/
noncomputable def applyAntiGaming (m : AggregatedMetrics) (rawScore : ℝ) : ℝ × ℚ :=
  (rawScore * (1 - ((min (antiGamingPenalty m) (1/2) : ℚ) : ℝ)), antiGamingPenalty m)

/-- `ScoreCalculator.calculateEnhancedMultiplier`: the product of the three
conditional bonuses, starting from 1.0 (the `factors` log strings are omitted). -/
def calculateEnhancedMultiplier (mult : EnhancedScoreMultipliers) (m : AggregatedMetrics) : ℚ :=
  (if m.graduatedPostRatio ≥ 3/10 then
      1 + (mult.graduatedTokenBonus - 1) * min (m.graduatedPostRatio / (1/2)) 1 else 1) *
    (if m.imagePostRatio ≥ 1/2 then
      1 + (mult.imagePostBonus - 1) * min m.imagePostRatio 1 else 1) *
    (if m.avgPriceFluctuation ≥ 1 then
      1 + (mult.priceVolatilityBonus - 1) * min (m.avgPriceFluctuation / 5) 1 else 1)

/-- `ScoreCalculator.getScoreTier`: fixed threshold table from score to tier. -/
def getScoreTier (score : ℚ) : String :=
  if score ≥ 8000 then "LEGENDARY"
  else if score ≥ 6000 then "VIRAL"
  else if score ≥ 4000 then "HOT"
  else if score ≥ 2000 then "WARM"
  else if score ≥ 500 then "ACTIVE"
  else "COLD"

/-- `ScoreCalculator.calculatePairScore`: `Math.round` of the average of the
two token scores, clamped to `[MIN_SCORE, MAX_SCORE]`. -/
def calculatePairScore (tokenXScore tokenYScore : ℚ) : ℤ :=
  min 10000 (max 0 (jsRound ((tokenXScore + tokenYScore) / 2)))

/-- Boundary metrics from the spec's strictness example:
10 posts, 10000 views, 5 likes, 2 unique users. -/
def boundaryMetrics : AggregatedMetrics :=
  { tokenSymbol := "EDGE", posts := 10, views := 10000, likes := 5, reposts := 0,
    replies := 0, uniqueUserCount := 2, latestPostTime := 0,
    avgBondingCurveProgress := 0, graduatedPostRatio := 0, imagePostRatio := 0,
    avgPriceFluctuation := 0, preOrderedUserRatio := 0 }

/-- Same metrics with 11 posts, which does cross the strict `posts > 10`
single-user-dominance threshold. -/
def boundaryMetrics11 : AggregatedMetrics :=
  { boundaryMetrics with posts := 11 }

/-- Evaluation lemma: the pair score of 8000 and 4000 is 6000. -/
theorem pairScore_8000_4000 : calculatePairScore 8000 4000 = 6000 := by
  norm_num [calculatePairScore, jsRound, min_def, max_def]

/-- Evaluation lemma: the tier of score 6000 is `VIRAL`. -/
theorem tier_6000 : getScoreTier (((6000 : ℤ) : ℚ)) = "VIRAL" := by
  norm_num [getScoreTier]

/-- C4 counterexample: the pair score of 8000 and 4000 is 6000, but
`getScoreTier` of that pair score is not `HOT` (the `≥ 6000` branch yields
`VIRAL`). -/
theorem pairScore_8000_4000_tier_not_hot :
    calculatePairScore 8000 4000 = 6000 ∧
      getScoreTier ((calculatePairScore 8000 4000 : ℤ) : ℚ) ≠ "HOT" := by
  refine ⟨pairScore_8000_4000, ?_⟩
  rw [pairScore_8000_4000, tier_6000]
  decide

/-- C4 (amended): for token scores 8000 and 4000 the pair score is
`round((8000+4000)/2) = 6000` and its tier is `VIRAL`. -/
theorem pairScore_8000_4000_tier_viral :
    calculatePairScore 8000 4000 = 6000 ∧
      getScoreTier ((calculatePairScore 8000 4000 : ℤ) : ℚ) = "VIRAL" := by
  refine ⟨pairScore_8000_4000, ?_⟩
  rw [pairScore_8000_4000, tier_6000]

/-- C9: the anti-gaming penalty is the sum of the three strict-threshold
terms, the applied penalty is capped at 0.5 so the adjusted score is
`raw × (1 − min(penalty, 0.5))`; at the boundary metrics (posts = 10,
views = 10000, likes = 5, uniqueUsers = 2) the 0.3 low-engagement penalty
fires but the 0.2 single-user-dominance penalty does not (strict `>`),
while at 11 posts it does. -/
theorem antiGaming_additive_capped_strict (raw : ℝ) :
    (∀ m : AggregatedMetrics,
        applyAntiGaming m raw =
          (raw * (1 - ((min
              ((if m.views > 1000 ∧ (m.likes + m.reposts + m.replies) / m.views < 1/1000
                  then 3/10 else 0) +
                (if m.posts > 10 ∧ m.uniqueUserCount < 3 then 1/5 else 0) +
                (if m.posts > 50 then 1/10 else 0)) (1/2) : ℚ) : ℝ)),
            antiGamingPenalty m)) ∧
      antiGamingPenalty boundaryMetrics = 3/10 ∧
      (applyAntiGaming boundaryMetrics raw).1 = raw * (7/10) ∧
      antiGamingPenalty boundaryMetrics11 = 1/2 ∧
      (applyAntiGaming boundaryMetrics11 raw).1 = raw * (1/2) := by
  have h10 : antiGamingPenalty boundaryMetrics = 3/10 := by
    norm_num [antiGamingPenalty, boundaryMetrics]
  have h11 : antiGamingPenalty boundaryMetrics11 = 1/2 := by
    norm_num [antiGamingPenalty, boundaryMetrics11, boundaryMetrics]
  refine ⟨fun m => rfl, h10, ?_, h11, ?_⟩
  · show raw * (1 - ((min (antiGamingPenalty boundaryMetrics) (1/2) : ℚ) : ℝ)) = raw * (7/10)
    rw [h10]
    norm_num [min_def]
  · show raw * (1 - ((min (antiGamingPenalty boundaryMetrics11) (1/2) : ℚ) : ℝ)) = raw * (1/2)
    rw [h11]
    norm_num [min_def]

/-- `ScoreCalculator.calculateTimeDecay`: the age of the latest post in
hours is `(now − latestPostTime) / (1000·60·60)` (both times in ms); ages
strictly above `MAX_AGE_HOURS = 168` decay to 0, otherwise the factor is
`exp(−ageHours·ln 2 / 24)` (half-life of 24 hours). -/
noncomputable def calculateTimeDecay (now latestPostTime : ℚ) : ℝ :=
  if (now - latestPostTime) / (1000 * 60 * 60) > 168 then 0
  else Real.exp (-(((now - latestPostTime) / (1000 * 60 * 60) : ℚ) : ℝ) * Real.log 2 / 24)

/-- The decay factor below the 168-hour cutoff equals `2 ^ (−ageHours/24)`. -/
theorem timeDecay_rpow (now latestPostTime : ℚ) :
    calculateTimeDecay now latestPostTime =
      if (now - latestPostTime) / (1000 * 60 * 60) > 168 then 0
      else (2 : ℝ) ^ (-(((now - latestPostTime) / (1000 * 60 * 60) : ℚ) : ℝ) / 24) := by
  unfold calculateTimeDecay
  split
  · rfl
  · rw [Real.rpow_def_of_pos (by norm_num : (0:ℝ) < 2)]
    congr 1
    ring

/-- The decay factor at age 0 (latest post exactly now) is 1. -/
theorem timeDecay_age_zero (t : ℚ) : calculateTimeDecay t t = 1 := by
  unfold calculateTimeDecay
  norm_num

/-- The decay factor at age 24 hours is exactly 1/2. -/
theorem timeDecay_age_24h : calculateTimeDecay (24 * (1000 * 60 * 60)) 0 = 1/2 := by
  unfold calculateTimeDecay
  rw [if_neg (by norm_num)]
  have h : (-(((24 * (1000 * 60 * 60) - 0) / (1000 * 60 * 60) : ℚ) : ℝ) * Real.log 2 / 24)
      = -Real.log 2 := by
    push_cast
    ring
  rw [h, Real.exp_neg, Real.exp_log (by norm_num : (0:ℝ) < 2)]
  norm_num

/-- Ages strictly above 168 hours decay to 0. -/
theorem timeDecay_expired (now latestPostTime : ℚ)
    (h : (now - latestPostTime) / (1000 * 60 * 60) > 168) :
    calculateTimeDecay now latestPostTime = 0 := by
  unfold calculateTimeDecay
  rw [if_pos h]

/-- C8: the time-decay factor is `2^(−ageHours/24)` for ages up to 168 hours
and 0 for ages strictly above 168 hours; in particular it is 1 at age 0,
exactly 1/2 at age 24 h, and 0 for any age above 168 h. -/
theorem timeDecay_spec :
    (∀ now latestPostTime : ℚ,
        calculateTimeDecay now latestPostTime =
          if (now - latestPostTime) / (1000 * 60 * 60) > 168 then 0
          else (2 : ℝ) ^ (-(((now - latestPostTime) / (1000 * 60 * 60) : ℚ) : ℝ) / 24)) ∧
      calculateTimeDecay 0 0 = 1 ∧
      calculateTimeDecay (24 * (1000 * 60 * 60)) 0 = 1/2 ∧
      (∀ now latestPostTime : ℚ, (now - latestPostTime) / (1000 * 60 * 60) > 168 →
        calculateTimeDecay now latestPostTime = 0) :=
  ⟨timeDecay_rpow, timeDecay_age_zero 0, timeDecay_age_24h, timeDecay_expired⟩

/-- C8 witness: a concrete age above the cutoff (200 hours) decays to 0. -/
theorem timeDecay_spec_witness : calculateTimeDecay (200 * (1000 * 60 * 60)) 0 = 0 :=
  timeDecay_spec.2.2.2 (200 * (1000 * 60 * 60)) 0 (by norm_num)

/-- `ScoreCalculator.normalizeScore`: saturating normalization
`round(clamp(raw/(raw+10000)·10000, 0, 10000))` to basis points. -/
noncomputable def normalizeScore (rawScore : ℝ) : ℤ :=
  jsRoundR (min 10000 (max 0 (rawScore / (rawScore + 10000) * 10000)))

/-- The normalized score always lands in `[0, 10000]`, whatever the raw
magnitude. -/
theorem normalizeScore_bounds (rawScore : ℝ) :
    0 ≤ normalizeScore rawScore ∧ normalizeScore rawScore ≤ 10000 := by
  unfold normalizeScore jsRoundR
  set u : ℝ := rawScore / (rawScore + 10000) * 10000 with hu
  have h0 : (0:ℝ) ≤ min 10000 (max 0 u) := le_min (by norm_num) (le_max_left 0 u)
  have h1 : min 10000 (max 0 u) ≤ 10000 := min_le_left _ _
  constructor
  · exact Int.le_floor.mpr (by push_cast; linarith)
  · have : ⌊min 10000 (max 0 u) + 1/2⌋ < 10001 := Int.floor_lt.mpr (by push_cast; linarith)
    omega

/-- `ScoreCalculator.calculate`: raw weighted sum, times the time-decay
factor, through the anti-gaming adjustment, times the enhanced multiplier,
normalized to basis points.  `now` is the wall-clock ms timestamp
(`Date.now()`). -/
noncomputable def calculate (w : ScoreWeights) (mult : EnhancedScoreMultipliers)
    (m : AggregatedMetrics) (now : ℚ) : ℤ :=
  normalizeScore
    ((applyAntiGaming m
        (((calculateRawScore w m : ℚ) : ℝ) * calculateTimeDecay now m.latestPostTime)).1 *
      ((calculateEnhancedMultiplier mult m : ℚ) : ℝ))

/-- C3: for every valid metrics input (non-negative counts, ratios in
`[0,1]`) and any weights and multipliers, the final score is an integer in
`[0, 10000]` regardless of the magnitude of the raw weighted sum. -/
theorem calculate_in_range (w : ScoreWeights) (mult : EnhancedScoreMultipliers)
    (m : AggregatedMetrics) (now : ℚ)
    (hposts : 0 ≤ m.posts) (hviews : 0 ≤ m.views) (hlikes : 0 ≤ m.likes)
    (hreposts : 0 ≤ m.reposts) (hreplies : 0 ≤ m.replies)
    (husers : 0 ≤ m.uniqueUserCount)
    (hgrad : 0 ≤ m.graduatedPostRatio ∧ m.graduatedPostRatio ≤ 1)
    (himg : 0 ≤ m.imagePostRatio ∧ m.imagePostRatio ≤ 1)
    (hbond : 0 ≤ m.avgBondingCurveProgress ∧ m.avgBondingCurveProgress ≤ 1)
    (hpre : 0 ≤ m.preOrderedUserRatio ∧ m.preOrderedUserRatio ≤ 1) :
    0 ≤ calculate w mult m now ∧ calculate w mult m now ≤ 10000 :=
  normalizeScore_bounds _

/-- C3 witness: the all-zero metrics are valid, and their score is in range. -/
theorem calculate_in_range_witness :
    0 ≤ calculate DEFAULT_WEIGHTS DEFAULT_MULTIPLIERS boundaryMetrics 0 ∧
      calculate DEFAULT_WEIGHTS DEFAULT_MULTIPLIERS boundaryMetrics 0 ≤ 10000 :=
  calculate_in_range DEFAULT_WEIGHTS DEFAULT_MULTIPLIERS boundaryMetrics 0
    (by norm_num [boundaryMetrics]) (by norm_num [boundaryMetrics])
    (by norm_num [boundaryMetrics]) (by norm_num [boundaryMetrics])
    (by norm_num [boundaryMetrics]) (by norm_num [boundaryMetrics])
    (by norm_num [boundaryMetrics]) (by norm_num [boundaryMetrics])
    (by norm_num [boundaryMetrics]) (by norm_num [boundaryMetrics])

/-- Metrics with a negative like count (all other counts zero, latest post
fresh). -/
def negativeMetrics : AggregatedMetrics :=
  { tokenSymbol := "NEG", posts := 0, views := 0, likes := -5, reposts := 0,
    replies := 0, uniqueUserCount := 0, latestPostTime := 0,
    avgBondingCurveProgress := 0, graduatedPostRatio := 0, imagePostRatio := 0,
    avgPriceFluctuation := 0, preOrderedUserRatio := 0 }

/-- C1: `ScoreCalculator.calculate` performs no validation: metrics with a
negative like count are silently scored (here the weighted sum is −100,
which the saturating clamp turns into the numeric score 0) instead of being
rejected with a validation error. -/
theorem calculate_accepts_negative_counts :
    calculate DEFAULT_WEIGHTS DEFAULT_MULTIPLIERS negativeMetrics 0 = 0 := by
  have hraw : calculateRawScore DEFAULT_WEIGHTS negativeMetrics = -100 := by
    norm_num [calculateRawScore, negativeMetrics, DEFAULT_WEIGHTS]
  have hpen : antiGamingPenalty negativeMetrics = 0 := by
    norm_num [antiGamingPenalty, negativeMetrics]
  have hmult : calculateEnhancedMultiplier DEFAULT_MULTIPLIERS negativeMetrics = 1 := by
    norm_num [calculateEnhancedMultiplier, negativeMetrics, DEFAULT_MULTIPLIERS]
  have hdecay : calculateTimeDecay 0 negativeMetrics.latestPostTime = 1 := by
    have : negativeMetrics.latestPostTime = 0 := rfl
    rw [this]
    exact timeDecay_age_zero 0
  unfold calculate applyAntiGaming
  rw [hraw, hpen, hmult, hdecay]
  unfold normalizeScore jsRoundR
  have hval : ((-100 : ℚ) : ℝ) * 1 * (1 - ((min (0 : ℚ) (1/2) : ℚ) : ℝ)) * ((1 : ℚ) : ℝ)
      = -100 := by
    norm_num [min_def]
  rw [hval]
  have hneg : (-100 : ℝ) / (-100 + 10000) * 10000 < 0 := by norm_num
  rw [max_eq_left hneg.le, min_eq_right (by norm_num : (0:ℝ) ≤ 10000)]
  norm_num

/-!
### Cache cleanup (`processCacheCleanup` in `src/jobs/scheduler.ts`)

The in-memory token score cache `latestTokenScores : Map<string, number>` is
modelled as an association list in insertion order.  The cleanup task sorts
its entries by score descending (`(a, b) => b[1] - a[1]`, a stable sort in
JavaScript) and keeps the top 100 — but only when the cache holds more than
100 entries.
-/

/-- The comparator `(a, b) => b[1] - a[1]`: `a` sorts before `b` when
`a`'s score is at least `b`'s. -/
def byScoreDesc (a b : String × ℚ) : Bool := decide (b.2 ≤ a.2)

/-- `processCacheCleanup` from `src/jobs/scheduler.ts`. -/
def processCacheCleanup (cache : List (String × ℚ)) : List (String × ℚ) :=
  if cache.length > 100 then (cache.mergeSort byScoreDesc).take 100 else cache

theorem byScoreDesc_trans (a b c : String × ℚ) :
    byScoreDesc a b = true → byScoreDesc b c = true → byScoreDesc a c = true := by
  simp only [byScoreDesc, decide_eq_true_eq]
  exact fun h1 h2 => le_trans h2 h1

theorem byScoreDesc_total (a b : String × ℚ) : (byScoreDesc a b || byScoreDesc b a) = true := by
  simp only [byScoreDesc, Bool.or_eq_true, decide_eq_true_eq]
  exact le_total b.2 a.2

/-- C10: after a cleanup run the cache has at most 100 entries; a cache of
at most 100 tokens is left unchanged, and a larger one is cut down to
exactly 100 entries, all drawn from the old cache, each scoring at least as
high as every entry that was dropped. -/
theorem processCacheCleanup_spec (cache : List (String × ℚ)) :
    (processCacheCleanup cache).length ≤ 100 ∧
      (cache.length ≤ 100 → processCacheCleanup cache = cache) ∧
      (cache.length > 100 →
        processCacheCleanup cache = (cache.mergeSort byScoreDesc).take 100 ∧
          (processCacheCleanup cache).length = 100 ∧
          (∀ x ∈ processCacheCleanup cache, x ∈ cache) ∧
          (∀ x ∈ processCacheCleanup cache,
            ∀ y ∈ (cache.mergeSort byScoreDesc).drop 100, y.2 ≤ x.2)) := by
  by_cases h : cache.length > 100
  · have hsorted := List.sorted_mergeSort byScoreDesc_trans byScoreDesc_total cache
    have hlen : (cache.mergeSort byScoreDesc).length = cache.length :=
      List.length_mergeSort cache
    have heq : processCacheCleanup cache = (cache.mergeSort byScoreDesc).take 100 := by
      unfold processCacheCleanup
      rw [if_pos h]
    have hlen100 : (processCacheCleanup cache).length = 100 := by
      rw [heq, List.length_take, hlen]
      omega
    have hmem : ∀ x ∈ processCacheCleanup cache, x ∈ cache := by
      intro x hx
      rw [heq] at hx
      exact (List.mergeSort_perm cache byScoreDesc).subset (List.take_subset 100 _ hx)
    have hge : ∀ x ∈ processCacheCleanup cache,
        ∀ y ∈ (cache.mergeSort byScoreDesc).drop 100, y.2 ≤ x.2 := by
      intro x hx y hy
      rw [heq] at hx
      have hsplit := List.take_append_drop 100 (cache.mergeSort byScoreDesc)
      rw [← hsplit] at hsorted
      have := (List.pairwise_append.mp hsorted).2.2 x hx y hy
      simpa [byScoreDesc] using this
    exact ⟨by omega, fun hle => absurd h (by omega), fun _ => ⟨heq, hlen100, hmem, hge⟩⟩
  · have heq : processCacheCleanup cache = cache := by
      unfold processCacheCleanup
      rw [if_neg h]
    exact ⟨by rw [heq]; omega, fun _ => heq, fun hgt => absurd hgt h⟩

/-- C10 witness: a one-entry cache is left untouched by cleanup. -/
theorem processCacheCleanup_spec_witness :
    processCacheCleanup [("A", (1 : ℚ))] = [("A", (1 : ℚ))] :=
  (processCacheCleanup_spec [("A", (1 : ℚ))]).2.1 (by decide)

/-!
### Checkpoint epoch assignment (`MerkleBuilder.getCurrentEpoch`/`buildTree`)

The `merkle_checkpoints` table is modelled by the list of persisted epochs in
insertion order; the other columns (root, pool count, serialized tree data)
play no role in epoch assignment.  `findFirst` ordered by epoch descending is
the maximum of the persisted epochs; the table's unique index on `epoch`
(`merkle_epoch_idx` in `src/db/schema.ts`) rejects a duplicate insert.
-/

/-- `db.query.merkleCheckpoints.findFirst` ordered by `epoch` descending:
the largest persisted epoch, if any checkpoint exists. -/
def lastCheckpointEpoch : List ℕ → Option ℕ
  | [] => none
  | e :: rest => some (max e ((lastCheckpointEpoch rest).getD 0))

/-- `MerkleBuilder.getCurrentEpoch`: one past the last persisted epoch, or 1
for an empty store. -/
def getCurrentEpoch (store : List ℕ) : ℕ :=
  match lastCheckpointEpoch store with
  | some e => e + 1
  | none => 1

/-- `MerkleBuilder.buildTree`, restricted to its epoch bookkeeping: an empty
score set is rejected, the new epoch is `getCurrentEpoch`, and persisting a
checkpoint whose epoch already exists is rejected by the store's unique
index.  Returns the new store and the assigned epoch. -/
def buildTree (store : List ℕ) (scores : List (String × ℕ)) :
    Except String (List ℕ × ℕ) :=
  if scores.isEmpty then .error "Cannot build merkle tree with no scores"
  else if getCurrentEpoch store ∈ store then
    .error "duplicate key value violates unique index merkle_epoch_idx"
  else .ok (store ++ [getCurrentEpoch store], getCurrentEpoch store)

/-- `K` successive checkpoint builds starting from the empty store, each fed
the same score set. -/
def buildIter (scores : List (String × ℕ)) : ℕ → List ℕ
  | 0 => []
  | k + 1 =>
    match buildTree (buildIter scores k) scores with
    | .ok (store, _) => store
    | .error _ => buildIter scores k

theorem lastCheckpointEpoch_append_singleton (l : List ℕ) (e : ℕ) :
    lastCheckpointEpoch (l ++ [e]) = some (max ((lastCheckpointEpoch l).getD 0) e) := by
  induction l with
  | nil =>
    simp only [List.nil_append, lastCheckpointEpoch, Option.getD_none, Option.some.injEq]
    omega
  | cons a t ih =>
    show lastCheckpointEpoch (a :: (t ++ [e])) = _
    rw [show lastCheckpointEpoch (a :: (t ++ [e]))
          = some (max a ((lastCheckpointEpoch (t ++ [e])).getD 0)) from rfl,
      ih,
      show lastCheckpointEpoch (a :: t)
          = some (max a ((lastCheckpointEpoch t).getD 0)) from rfl]
    simp only [Option.getD_some, Option.some.injEq]
    omega

theorem lastCheckpointEpoch_range (K : ℕ) :
    lastCheckpointEpoch ((List.range K).map (· + 1)) = if K = 0 then none else some K := by
  induction K with
  | zero => simp [lastCheckpointEpoch]
  | succ k ih =>
    rw [List.range_succ, List.map_append]
    simp only [List.map_cons, List.map_nil]
    rw [lastCheckpointEpoch_append_singleton, ih]
    cases k with
    | zero => simp
    | succ j =>
      rw [if_neg (Nat.succ_ne_zero j), if_neg (Nat.succ_ne_zero (j + 1))]
      simp only [Option.getD_some, Option.some.injEq]
      omega

theorem getCurrentEpoch_range (K : ℕ) :
    getCurrentEpoch ((List.range K).map (· + 1)) = K + 1 := by
  unfold getCurrentEpoch
  rw [lastCheckpointEpoch_range]
  cases K with
  | zero => simp
  | succ k => simp

theorem succ_not_mem_range_map (K : ℕ) : K + 1 ∉ (List.range K).map (· + 1) := by
  simp only [List.mem_map, List.mem_range]
  rintro ⟨i, hi, h⟩
  omega

/-- The store after `K` successful builds holds exactly the epochs `1..K`
in creation order. -/
theorem buildIter_epochs (scores : List (String × ℕ)) (hne : ¬scores.isEmpty) (K : ℕ) :
    buildIter scores K = (List.range K).map (· + 1) := by
  induction K with
  | zero => simp [buildIter]
  | succ k ih =>
    show (match buildTree (buildIter scores k) scores with
      | .ok (store, _) => store
      | .error _ => buildIter scores k) = _
    rw [ih]
    unfold buildTree
    rw [if_neg hne, if_neg (by rw [getCurrentEpoch_range]; exact succ_not_mem_range_map k),
      getCurrentEpoch_range]
    simp [List.range_succ]

/-- C6: every successful `buildTree` assigns the epoch
`last persisted epoch + 1` (1 on an empty store) and appends it to the
store, rejecting a duplicate epoch; consequently `K` successive builds from
the empty store persist exactly the epochs `1..K`, in order, with no gap
and no reuse. -/
theorem checkpoint_epochs_sequential :
    (∀ (store : List ℕ) (scores : List (String × ℕ)) (newStore : List ℕ) (e : ℕ),
        buildTree store scores = .ok (newStore, e) →
          e = getCurrentEpoch store ∧ newStore = store ++ [e] ∧ e ∉ store) ∧
      (∀ (scores : List (String × ℕ)), ¬scores.isEmpty →
        ∀ K : ℕ, buildIter scores K = (List.range K).map (· + 1)) := by
  constructor
  · intro store scores newStore e h
    unfold buildTree at h
    by_cases h1 : scores.isEmpty
    · rw [if_pos h1] at h
      exact absurd h (by simp)
    · rw [if_neg h1] at h
      by_cases h2 : getCurrentEpoch store ∈ store
      · rw [if_pos h2] at h
        exact absurd h (by simp)
      · rw [if_neg h2] at h
        simp only [Except.ok.injEq, Prod.mk.injEq] at h
        obtain ⟨hst, he⟩ := h
        subst he
        exact ⟨rfl, hst.symm, h2⟩
  · exact buildIter_epochs

/-- C6 witness: three builds from the empty store persist epochs 1, 2, 3. -/
theorem checkpoint_epochs_sequential_witness :
    buildIter [("A", 5)] 3 = [1, 2, 3] := by
  have h := checkpoint_epochs_sequential.2 [("A", 5)] (by decide) 3
  simpa using h

/-!
### Signer configuration (`ScoreSigner.constructor`, `EpochSubmitter`)

`process.env.SIGNER_PRIVATE_KEY` is `Option String` (an unset variable is
`none`; JavaScript treats the empty string as falsy as well).  A `throw` in
a constructor is an `Except.error`.
-/

/-- `ScoreSigner`'s constructed state: the account derived from the key. -/
structure ScoreSignerState where
  privateKey : String
deriving DecidableEq

/-- The `ScoreSigner` constructor: `throw` when `SIGNER_PRIVATE_KEY` is
absent (or falsy), otherwise derive the account.  The singleton
`export const scoreSigner = new ScoreSigner()` runs this at module load. -/
def scoreSignerConstruct (envKey : Option String) : Except String ScoreSignerState :=
  match envKey with
  | none => .error "SIGNER_PRIVATE_KEY environment variable is required"
  | some k =>
    if k = "" then .error "SIGNER_PRIVATE_KEY environment variable is required"
    else .ok ⟨k⟩

/-- `EpochSubmitter`'s constructed state: account and wallet client are only
populated when the key is configured. -/
structure EpochSubmitterState where
  account : Option String
deriving DecidableEq

/-- The `EpochSubmitter` constructor: never throws; it merely warns and
leaves the account/wallet unset when the key is absent. -/
def epochSubmitterConstruct (envKey : Option String) : EpochSubmitterState :=
  ⟨match envKey with
    | none => none
    | some k => if k = "" then none else some k⟩

/-- `EpochSubmitter.isReady`. -/
def EpochSubmitterState.isReady (s : EpochSubmitterState) : Bool := s.account.isSome

/-- `EpochSubmitter.signEpoch`: throws `Signer not configured` without an
account, otherwise produces a signature (abstracted). -/
def signEpochOp (s : EpochSubmitterState) : Except String String :=
  match s.account with
  | none => .error "Signer not configured"
  | some k => .ok ("sig:" ++ k)

/-- `EpochSubmitter.submitEpoch`: throws when the wallet client is not
configured, otherwise submits (abstracted). -/
def submitEpochOp (s : EpochSubmitterState) : Except String String :=
  match s.account with
  | none => .error "Wallet client not configured - set SIGNER_PRIVATE_KEY"
  | some k => .ok ("tx:" ++ k)

/-- C5: with `SIGNER_PRIVATE_KEY` unset, the `EpochSubmitter` constructor
succeeds with `isReady = false` and both epoch operations report a
not-configured error instead of submitting — but the `ScoreSigner`
constructor (run at module load for the singleton) throws, so the claimed
never-crash behavior fails for `ScoreSigner`. -/
theorem unconfigured_signer_behavior :
    scoreSignerConstruct none
        = .error "SIGNER_PRIVATE_KEY environment variable is required" ∧
      (epochSubmitterConstruct none).isReady = false ∧
      signEpochOp (epochSubmitterConstruct none) = .error "Signer not configured" ∧
      submitEpochOp (epochSubmitterConstruct none)
        = .error "Wallet client not configured - set SIGNER_PRIVATE_KEY" :=
  ⟨rfl, rfl, rfl, rfl⟩

/-!
### Nonce issuance (`ScoreSigner.getNextNonce`)

For one fixed pool id, the signer state is the in-memory nonce cache entry
(`this.nonces.get(poolId)`) and the highest nonce persisted in
`pair_scores` (0 when no row exists, matching `lastScore ? ... : 0n`).  An
async call to `getNextNonce` is a task; it executes atomically between
`await` points.  The warm-cache path (cache hit, increment, store, return)
contains no `await`, so it is a single step.  The cold path suspends at
`await db.query...`, so the cache check and the resumption
(`lastNonce + 1`, cache store, return) are separate steps, and other tasks
may interleave in between.
-/

/-- The program counter of one `getNextNonce` invocation. -/
inductive NoncePC where
  /-- Ready to run: about to check the in-memory cache. -/
  | start : NoncePC
  /-- Suspended at the `await` of the database read; carries the nonce the
  read returned. -/
  | resumed : ℕ → NoncePC
  /-- Returned with the issued nonce. -/
  | issued : ℕ → NoncePC
deriving DecidableEq

/-- Shared signer state for one pool: the cache entry and the highest
persisted nonce. -/
structure SignerShared where
  cache : Option ℕ
  dbMax : ℕ
deriving DecidableEq

/-- Atomic steps of one `getNextNonce` invocation, from `signer.ts` lines
36–56. -/
inductive nonceStep : SignerShared × NoncePC → SignerShared × NoncePC → Prop where
  /-- Cache hit: increment, store, return — no `await`, one atomic step. -/
  | warm (s : SignerShared) (c : ℕ) (h : s.cache = some c) :
      nonceStep (s, .start) ({ s with cache := some (c + 1) }, .issued (c + 1))
  /-- Cache miss: suspend on the database read of the highest persisted
  nonce for the pool. -/
  | coldRead (s : SignerShared) (h : s.cache = none) :
      nonceStep (s, .start) (s, .resumed s.dbMax)
  /-- Resume after the read: `nextNonce = lastNonce + 1`, store it in the
  cache, return it. -/
  | coldResume (s : SignerShared) (n : ℕ) :
      nonceStep (s, .resumed n) ({ s with cache := some (n + 1) }, .issued (n + 1))

/-- Two concurrent `getNextNonce` invocations for the same pool. -/
structure NonceRace where
  shared : SignerShared
  t1 : NoncePC
  t2 : NoncePC
deriving DecidableEq

/-- Event-loop interleaving: at each step one of the two tasks advances. -/
inductive raceStep : NonceRace → NonceRace → Prop where
  | left {r : NonceRace} {s' : SignerShared} {p' : NoncePC}
      (h : nonceStep (r.shared, r.t1) (s', p')) : raceStep r ⟨s', p', r.t2⟩
  | right {r : NonceRace} {s' : SignerShared} {p' : NoncePC}
      (h : nonceStep (r.shared, r.t2) (s', p')) : raceStep r ⟨s', r.t1, p'⟩

/-- C2 counterexample: from a cold cache with no persisted nonce, a legal
interleaving of two concurrent `getNextNonce` calls for the same pool issues
the nonce 1 to both — both miss the cache, both read the database before
either resumes, and both return `0 + 1`.  Concurrent nonces are therefore
not always distinct. -/
theorem nonce_race_duplicate :
    Relation.ReflTransGen raceStep
      ⟨⟨none, 0⟩, .start, .start⟩
      ⟨⟨some 1, 0⟩, .issued 1, .issued 1⟩ := by
  have s1 : raceStep ⟨⟨none, 0⟩, .start, .start⟩ ⟨⟨none, 0⟩, .resumed 0, .start⟩ :=
    .left (.coldRead ⟨none, 0⟩ rfl)
  have s2 : raceStep ⟨⟨none, 0⟩, .resumed 0, .start⟩ ⟨⟨none, 0⟩, .resumed 0, .resumed 0⟩ :=
    .right (.coldRead ⟨none, 0⟩ rfl)
  have s3 : raceStep ⟨⟨none, 0⟩, .resumed 0, .resumed 0⟩
      ⟨⟨some 1, 0⟩, .issued 1, .resumed 0⟩ :=
    .left (.coldResume ⟨none, 0⟩ 0)
  have s4 : raceStep ⟨⟨some 1, 0⟩, .issued 1, .resumed 0⟩
      ⟨⟨some 1, 0⟩, .issued 1, .issued 1⟩ :=
    .right (.coldResume ⟨some 1, 0⟩ 0)
  exact .head s1 (.head s2 (.head s3 (.head s4 .refl)))

/-!
### Merkle checkpoint proofs

`MerkleBuilder.getProofFromCheckpoint` and `MerkleBuilder.verifyProof`
delegate the tree construction to the third-party
`@openzeppelin/merkle-tree` `StandardMerkleTree`, whose internals are not
part of this repository's sources.  Modelled from the spec: the tree "uses a
canonical double-hash, sorted-sibling scheme"; a leaf is `(poolId, score,
epoch)` in a fixed-width encoding, hashed twice; sibling nodes are hashed in
sorted order; `getProof` collects the sibling path of a leaf;
`verifyProof` recomputes the leaf hash and folds the proof path, comparing
the result against the supplied root.  Byte strings are lists of naturals,
and `keccak256` is an arbitrary function `H : List ℕ → ℕ` whose collision
resistance is modelled as injectivity.
-/

/-- One checkpoint leaf: `(poolId, score, epoch)`. -/
structure MerkleLeaf where
  poolId : List ℕ
  score : ℕ
  epoch : ℕ
deriving DecidableEq

/-- Fixed-width `abi.encode` of a leaf: the 32-byte pool id followed by the
score and epoch words. -/
def encodeLeaf (l : MerkleLeaf) : List ℕ := l.poolId ++ [l.score, l.epoch]

/-- The double-hashed leaf: `keccak256(keccak256(encode(leaf)))`. -/
def leafHash (H : List ℕ → ℕ) (l : MerkleLeaf) : ℕ := H [H (encodeLeaf l)]

/-- Sorted-sibling node hash: the pair is ordered before hashing, so the
combination is symmetric. -/
def hashPair (H : List ℕ → ℕ) (a b : ℕ) : ℕ := H [min a b, max a b]

/-- One level of tree construction: adjacent nodes are combined; a trailing
odd node is carried up unchanged. -/
def buildLevel (H : List ℕ → ℕ) : List ℕ → List ℕ
  | [] => []
  | [a] => [a]
  | a :: b :: rest => hashPair H a b :: buildLevel H rest

theorem length_buildLevel (H : List ℕ → ℕ) :
    (l : List ℕ) → (buildLevel H l).length = (l.length + 1) / 2
  | [] => rfl
  | [_] => by simp [buildLevel]
  | a :: b :: rest => by
    show (hashPair H a b :: buildLevel H rest).length = _
    simp only [List.length_cons]
    rw [length_buildLevel H rest]
    omega

/-- The root of a (hashed-)leaf level: fold levels until one node remains. -/
def rootAux (H : List ℕ → ℕ) (l : List ℕ) : ℕ :=
  if h : l.length ≤ 1 then l.headD 0
  else rootAux H (buildLevel H l)
termination_by l.length
decreasing_by
  rw [length_buildLevel]
  omega

/-- The sibling path of the node at index `i`: its sibling at each level
(none at a level where the node is a trailing odd carry). -/
def getProofAux (H : List ℕ → ℕ) (l : List ℕ) (i : ℕ) : List ℕ :=
  if h : l.length ≤ 1 then []
  else
    (if i % 2 = 0 then
        (if i + 1 < l.length then [l.getD (i + 1) 0] else [])
      else [l.getD (i - 1) 0]) ++
      getProofAux H (buildLevel H l) (i / 2)
termination_by l.length
decreasing_by
  rw [length_buildLevel]
  omega

/-- `StandardMerkleTree.verify`'s processing: fold the proof path from the
leaf hash with the sorted-sibling combination. -/
def processProof (H : List ℕ → ℕ) (leaf : ℕ) (proof : List ℕ) : ℕ :=
  proof.foldl (hashPair H) leaf

theorem hashPair_comm (H : List ℕ → ℕ) (a b : ℕ) : hashPair H a b = hashPair H b a := by
  unfold hashPair
  rw [min_comm, max_comm]

theorem getD_buildLevel (H : List ℕ → ℕ) :
    (l : List ℕ) → (j : ℕ) →
      (buildLevel H l).getD j 0 =
        if 2 * j + 1 < l.length then hashPair H (l.getD (2 * j) 0) (l.getD (2 * j + 1) 0)
        else l.getD (2 * j) 0
  | [], j => by
    show ([] : List ℕ).getD j 0 = _
    rw [if_neg (by simp)]
    simp [List.getD]
  | [a], j => by
    show ([a] : List ℕ).getD j 0 = _
    rw [if_neg (by simp only [List.length_singleton]; omega)]
    cases j with
    | zero => rfl
    | succ j' =>
      rw [show 2 * (j' + 1) = 2 * j' + 1 + 1 by omega]
      simp [List.getD]
  | a :: b :: rest, 0 => by
    show (hashPair H a b :: buildLevel H rest).getD 0 0 = _
    rw [if_pos (by simp only [List.length_cons]; omega)]
    rfl
  | a :: b :: rest, j + 1 => by
    show (hashPair H a b :: buildLevel H rest).getD (j + 1) 0 = _
    rw [List.getD_cons_succ, getD_buildLevel H rest j]
    rw [show 2 * (j + 1) = 2 * j + 1 + 1 by omega,
      show 2 * j + 1 + 1 + 1 = 2 * j + 1 + 2 by omega]
    simp only [List.getD_cons_succ, List.length_cons]
    by_cases hc : 2 * j + 1 < rest.length
    · rw [if_pos hc, if_pos (by omega)]
    · rw [if_neg hc, if_neg (by omega)]

/-- Folding the sibling path from the node at index `i` of a level
reproduces the root of that level. -/
theorem processProof_getProofAux (H : List ℕ → ℕ) (l : List ℕ) (i : ℕ) (hi : i < l.length) :
    processProof H (l.getD i 0) (getProofAux H l i) = rootAux H l := by
  by_cases h : l.length ≤ 1
  · match l, h, hi with
    | [], _, hia => exact absurd hia (by simp)
    | [a], _, hia =>
      unfold getProofAux rootAux
      rw [dif_pos (by simp), dif_pos (by simp)]
      have hz : i = 0 := by
        simp only [List.length_singleton] at hia
        omega
      subst hz
      rfl
    | a :: b :: rest, hle, _ =>
      simp only [List.length_cons] at hle
      omega
  · unfold getProofAux rootAux
    rw [dif_neg h, dif_neg h]
    unfold processProof
    rw [List.foldl_append]
    have hfirst :
        List.foldl (hashPair H) (l.getD i 0)
            (if i % 2 = 0 then
              (if i + 1 < l.length then [l.getD (i + 1) 0] else [])
            else [l.getD (i - 1) 0]) =
          (buildLevel H l).getD (i / 2) 0 := by
      rw [getD_buildLevel H l (i / 2)]
      by_cases hpar : i % 2 = 0
      · rw [show 2 * (i / 2) = i by omega]
        rw [if_pos hpar]
        by_cases hnext : i + 1 < l.length
        · rw [if_pos hnext, if_pos hnext]
          simp only [List.foldl_cons, List.foldl_nil]
        · rw [if_neg hnext, if_neg hnext]
          simp only [List.foldl_nil]
      · rw [show 2 * (i / 2) = i - 1 by omega, show i - 1 + 1 = i by omega]
        rw [if_neg hpar, if_pos hi]
        simp only [List.foldl_cons, List.foldl_nil]
        exact hashPair_comm H _ _
    rw [hfirst]
    exact processProof_getProofAux H (buildLevel H l) (i / 2)
      (by rw [length_buildLevel]; omega)
termination_by l.length
decreasing_by
  rw [length_buildLevel]
  omega

theorem hashPair_left_cancel {H : List ℕ → ℕ} (hinj : Function.Injective H)
    {a b c : ℕ} (h : hashPair H a c = hashPair H b c) : a = b := by
  have h2 := hinj h
  simp only [List.cons.injEq, and_true] at h2
  omega

theorem hashPair_right_cancel {H : List ℕ → ℕ} (hinj : Function.Injective H)
    {a b c : ℕ} (h : hashPair H c a = hashPair H c b) : a = b := by
  have h2 := hinj h
  simp only [List.cons.injEq, and_true] at h2
  omega

/-- Folding the same proof path from two leaf hashes is injective in the
leaf hash. -/
theorem processProof_left_cancel {H : List ℕ → ℕ} (hinj : Function.Injective H) :
    (p : List ℕ) → {a b : ℕ} → processProof H a p = processProof H b p → a = b
  | [], _, _, h => h
  | q :: rest, a, b, h => by
    have hrec : hashPair H a q = hashPair H b q :=
      processProof_left_cancel hinj rest h
    exact hashPair_left_cancel hinj hrec

/-- Altering one element of the proof path changes the folded result. -/
theorem processProof_set_ne {H : List ℕ → ℕ} (hinj : Function.Injective H) :
    (p : List ℕ) → (k : ℕ) → (a v : ℕ) → k < p.length → v ≠ p.getD k 0 →
      processProof H a (p.set k v) ≠ processProof H a p
  | [], k, a, v, hk, _ => absurd hk (by simp)
  | q :: rest, 0, a, v, _, hv => by
    intro h
    show False
    have h1 : processProof H (hashPair H a v) rest
        = processProof H (hashPair H a q) rest := h
    have h2 := processProof_left_cancel hinj rest h1
    exact hv (hashPair_right_cancel hinj h2)
  | q :: rest, k + 1, a, v, hk, hv => by
    intro h
    have h1 : processProof H (hashPair H a q) (rest.set k v)
        = processProof H (hashPair H a q) rest := h
    exact processProof_set_ne hinj rest k (hashPair H a q) v
      (by simp only [List.length_cons] at hk; omega)
      (by simpa using hv) h1

/-- The fixed-width leaf encoding is injective: the score/epoch suffix has
fixed width, so pool ids of any length cancel. -/
theorem encodeLeaf_injective : Function.Injective encodeLeaf := by
  intro l1 l2 h
  unfold encodeLeaf at h
  have hlen : l1.poolId.length = l2.poolId.length := by
    have := congrArg List.length h
    simp only [List.length_append, List.length_cons, List.length_nil] at this
    omega
  obtain ⟨hp, ht⟩ := List.append_inj h hlen
  simp only [List.cons.injEq, and_true] at ht
  cases l1
  cases l2
  simp_all

/-- The double leaf hash is injective when the hash is. -/
theorem leafHash_injective {H : List ℕ → ℕ} (hinj : Function.Injective H) :
    Function.Injective (leafHash H) := by
  intro l1 l2 h
  unfold leafHash at h
  have h1 := hinj h
  simp only [List.cons.injEq, and_true] at h1
  exact encodeLeaf_injective (hinj h1)

/-- The source's `for (const [index, leaf] of tree.entries())` loop matching
`leaf[0] === poolId`: index of the first leaf with the given pool id. -/
def findLeafIdx : List MerkleLeaf → List ℕ → Option ℕ
  | [], _ => none
  | lf :: rest, pid =>
    if lf.poolId = pid then some 0 else (findLeafIdx rest pid).map (· + 1)

/-- The `MerkleProof` record returned to API consumers
(`src/types/score.ts`): leaf data, sibling path, and root. -/
structure MerkleProofR where
  poolId : List ℕ
  score : ℕ
  epoch : ℕ
  proof : List ℕ
  root : ℕ

/-- The hashed leaf level of a checkpoint's persisted leaves. -/
def hashedLeaves (H : List ℕ → ℕ) (leaves : List MerkleLeaf) : List ℕ :=
  leaves.map (leafHash H)

/-- `MerkleBuilder.getProofFromCheckpoint` for a checkpoint persisted with
`leaves`: rebuild the tree, find the first leaf with the pool id, and return
its data, sibling path, and the rebuilt root (`none` when the pool is not in
the checkpoint). -/
def getProofFromCheckpoint (H : List ℕ → ℕ) (leaves : List MerkleLeaf)
    (pid : List ℕ) : Option MerkleProofR :=
  (findLeafIdx leaves pid).map (fun i =>
    { poolId := pid,
      score := (leaves.getD i ⟨[], 0, 0⟩).score,
      epoch := (leaves.getD i ⟨[], 0, 0⟩).epoch,
      proof := getProofAux H (hashedLeaves H leaves) i,
      root := rootAux H (hashedLeaves H leaves) })

/-- `MerkleBuilder.verifyProof`: recompute the leaf hash from the proof's
own fields and fold the path, comparing against the proof's root. -/
def verifyProof (H : List ℕ → ℕ) (p : MerkleProofR) : Bool :=
  processProof H (leafHash H ⟨p.poolId, p.score, p.epoch⟩) p.proof == p.root

theorem findLeafIdx_spec :
    (leaves : List MerkleLeaf) → (lf : MerkleLeaf) →
      (leaves.map MerkleLeaf.poolId).Nodup → lf ∈ leaves →
        ∃ i, findLeafIdx leaves lf.poolId = some i ∧ i < leaves.length ∧
          leaves.getD i ⟨[], 0, 0⟩ = lf
  | [], lf, _, hmem => absurd hmem (by simp)
  | hd :: rest, lf, hnd, hmem => by
    rw [List.map_cons, List.nodup_cons] at hnd
    obtain ⟨hnotin, hndrest⟩ := hnd
    by_cases heq : hd.poolId = lf.poolId
    · have hlf : hd = lf := by
        rcases List.mem_cons.mp hmem with h | h
        · exact h.symm
        · exact absurd (heq ▸ List.mem_map_of_mem MerkleLeaf.poolId h) hnotin
      refine ⟨0, ?_, by simp, by simp [hlf]⟩
      unfold findLeafIdx
      rw [if_pos heq]
    · have hmem' : lf ∈ rest := by
        rcases List.mem_cons.mp hmem with h | h
        · exact absurd (congrArg MerkleLeaf.poolId h.symm) heq
        · exact h
      obtain ⟨i, hfind, hlt, hget⟩ := findLeafIdx_spec rest lf hndrest hmem'
      refine ⟨i + 1, ?_, by simp only [List.length_cons]; omega, by
        rw [List.getD_cons_succ]; exact hget⟩
      unfold findLeafIdx
      rw [if_neg heq, hfind]
      rfl

theorem getD_hashedLeaves (H : List ℕ → ℕ) :
    (leaves : List MerkleLeaf) → (i : ℕ) → i < leaves.length →
      (hashedLeaves H leaves).getD i 0 = leafHash H (leaves.getD i ⟨[], 0, 0⟩)
  | [], i, hi => absurd hi (by simp)
  | hd :: rest, 0, _ => rfl
  | hd :: rest, i + 1, hi => by
    show (hashedLeaves H rest).getD i 0 = leafHash H (rest.getD i ⟨[], 0, 0⟩)
    exact getD_hashedLeaves H rest i (by simp only [List.length_cons] at hi; omega)

/-- C7: for a checkpoint whose persisted leaves have pairwise-distinct pool
ids, proof retrieval for any leaf in it yields a proof carrying that leaf's
data which `verifyProof` accepts; altering the pool id, the score, or any
element of the sibling path makes `verifyProof` reject.  `keccak256` is
modelled as an arbitrary injective hash. -/
theorem merkle_proof_roundtrip_tamper (H : List ℕ → ℕ) (hinj : Function.Injective H)
    (leaves : List MerkleLeaf) (lf : MerkleLeaf)
    (hnd : (leaves.map MerkleLeaf.poolId).Nodup) (hmem : lf ∈ leaves) :
    ∃ p : MerkleProofR,
      getProofFromCheckpoint H leaves lf.poolId = some p ∧
        p.poolId = lf.poolId ∧ p.score = lf.score ∧ p.epoch = lf.epoch ∧
        verifyProof H p = true ∧
        (∀ q : List ℕ, q ≠ lf.poolId → verifyProof H { p with poolId := q } = false) ∧
        (∀ s : ℕ, s ≠ lf.score → verifyProof H { p with score := s } = false) ∧
        (∀ k v : ℕ, k < p.proof.length → v ≠ p.proof.getD k 0 →
          verifyProof H { p with proof := p.proof.set k v } = false) := by
  obtain ⟨i, hfind, hlt, hget⟩ := findLeafIdx_spec leaves lf hnd hmem
  have hlen : (hashedLeaves H leaves).length = leaves.length := by
    unfold hashedLeaves
    exact List.length_map leaves (leafHash H)
  have hroot : processProof H ((hashedLeaves H leaves).getD i 0)
      (getProofAux H (hashedLeaves H leaves) i) = rootAux H (hashedLeaves H leaves) :=
    processProof_getProofAux H (hashedLeaves H leaves) i (by omega)
  have hleafhash : (hashedLeaves H leaves).getD i 0 = leafHash H lf := by
    rw [getD_hashedLeaves H leaves i hlt, hget]
  rw [hleafhash] at hroot
  refine ⟨⟨lf.poolId, lf.score, lf.epoch, getProofAux H (hashedLeaves H leaves) i,
    rootAux H (hashedLeaves H leaves)⟩, ?_, rfl, rfl, rfl, ?_, ?_, ?_, ?_⟩
  · unfold getProofFromCheckpoint
    rw [hfind]
    simp only [Option.map_some']
    rw [hget]
  · show (processProof H (leafHash H ⟨lf.poolId, lf.score, lf.epoch⟩) _ == _) = true
    rw [show (⟨lf.poolId, lf.score, lf.epoch⟩ : MerkleLeaf) = lf from rfl, hroot]
    simp
  · intro q hq
    show (processProof H (leafHash H ⟨q, lf.score, lf.epoch⟩) _ == _) = false
    rw [beq_eq_false_iff_ne]
    intro hcontra
    rw [← hroot] at hcontra
    have heq : (⟨q, lf.score, lf.epoch⟩ : MerkleLeaf) = lf :=
      leafHash_injective hinj (processProof_left_cancel hinj _ hcontra)
    exact hq (congrArg MerkleLeaf.poolId heq)
  · intro s hs
    show (processProof H (leafHash H ⟨lf.poolId, s, lf.epoch⟩) _ == _) = false
    rw [beq_eq_false_iff_ne]
    intro hcontra
    rw [← hroot] at hcontra
    have heq : (⟨lf.poolId, s, lf.epoch⟩ : MerkleLeaf) = lf :=
      leafHash_injective hinj (processProof_left_cancel hinj _ hcontra)
    exact hs (congrArg MerkleLeaf.score heq)
  · intro k v hk hv
    show (processProof H (leafHash H ⟨lf.poolId, lf.score, lf.epoch⟩) _ == _) = false
    rw [show (⟨lf.poolId, lf.score, lf.epoch⟩ : MerkleLeaf) = lf from rfl]
    rw [beq_eq_false_iff_ne]
    rw [← hroot]
    exact processProof_set_ne hinj _ k (leafHash H lf) v hk hv

/-- Concrete three-leaf checkpoint for the C7 witness. -/
def witnessLeaves : List MerkleLeaf := [⟨[1, 2], 5, 1⟩, ⟨[3, 4], 7, 1⟩, ⟨[5, 6], 9, 1⟩]

/-- C7 witness: the round-trip and tamper-rejection property instantiated
with an explicit injective hash (the standard encoding of `List ℕ` into `ℕ`)
and the middle leaf of a three-leaf checkpoint. -/
theorem merkle_proof_roundtrip_tamper_witness :
    ∃ p : MerkleProofR,
      getProofFromCheckpoint (Encodable.encode : List ℕ → ℕ) witnessLeaves
          (⟨[3, 4], 7, 1⟩ : MerkleLeaf).poolId = some p ∧
        p.poolId = (⟨[3, 4], 7, 1⟩ : MerkleLeaf).poolId ∧
        p.score = (⟨[3, 4], 7, 1⟩ : MerkleLeaf).score ∧
        p.epoch = (⟨[3, 4], 7, 1⟩ : MerkleLeaf).epoch ∧
        verifyProof Encodable.encode p = true ∧
        (∀ q : List ℕ, q ≠ (⟨[3, 4], 7, 1⟩ : MerkleLeaf).poolId →
          verifyProof Encodable.encode { p with poolId := q } = false) ∧
        (∀ s : ℕ, s ≠ (⟨[3, 4], 7, 1⟩ : MerkleLeaf).score →
          verifyProof Encodable.encode { p with score := s } = false) ∧
        (∀ k v : ℕ, k < p.proof.length → v ≠ p.proof.getD k 0 →
          verifyProof Encodable.encode { p with proof := p.proof.set k v } = false) :=
  merkle_proof_roundtrip_tamper Encodable.encode Encodable.encode_injective
    witnessLeaves ⟨[3, 4], 7, 1⟩ (by decide) (by decide)

end ViralScore
